import Mathlib

/-!
Verification of the pinned-models tree utilities and the PDF extraction
worker of this repository, by a shallow embedding in Lean.

A `PinnedItem` is either a bare string id (a leaf) or a category with a
name and a child list.  The source handles malformed category objects
whose `children` field is absent (`item?.children`, `item.children ?? []`),
so the embedding makes the child list an `Option`: `none` models a
category object lacking the `children` field.
-/

/-- A pinned item: either a leaf string id or a category with a name and
an optional child list (`none` models an object whose `children` field is
missing, which the source code tolerates). -/
inductive PinnedItem where
  | leaf : String → PinnedItem
  | category : String → Option (List PinnedItem) → PinnedItem

/-- Embedding of `getPinnedModelIds` from `src/lib/utils/pinned-models.ts`:
walks the list, pushes leaf ids, and recurses into a category's children
when the `children` field is present (`item?.children`); a category with
no `children` field is skipped. -/
def getPinnedModelIds : List PinnedItem → List String
  | [] => []
  | .leaf i :: rest => i :: getPinnedModelIds rest
  | .category _ (some cs) :: rest => getPinnedModelIds cs ++ getPinnedModelIds rest
  | .category _ none :: rest => getPinnedModelIds rest

/-- Embedding of `removeModelFromTree`: keeps leaves different from
`modelId`, recursively filters each category's children
(`item.children ?? []` treats a missing field as empty) and keeps the
category, with all its other fields intact (`{ ...item, children }`),
only when the filtered child list is nonempty.  The `none` branch inlines
the source's `removeModelFromTree(undefined ?? [], modelId) = []`, whose
length-0 filtered list means the category is dropped. -/
def removeModelFromTree : List PinnedItem → String → List PinnedItem
  | [], _ => []
  | .leaf i :: rest, modelId =>
      if i = modelId then removeModelFromTree rest modelId
      else .leaf i :: removeModelFromTree rest modelId
  | .category n (some cs) :: rest, modelId =>
      let children := removeModelFromTree cs modelId
      if children.length > 0 then
        .category n (some children) :: removeModelFromTree rest modelId
      else
        removeModelFromTree rest modelId
  | .category _ none :: rest, modelId =>
      removeModelFromTree rest modelId

/-- Embedding of `addModelToTree`: `[...items, modelId]`, the new id
appended as a leaf at the end of the top-level list. -/
def addModelToTree (items : List PinnedItem) (modelId : String) : List PinnedItem :=
  items ++ [.leaf modelId]

/-- A tree is well-pruned when every category in it carries a `children`
field holding a nonempty, recursively well-pruned list.  `removeModelFromTree`
only ever emits categories with a nonempty rebuilt child list, so its
output always satisfies this predicate. -/
def wellPruned : List PinnedItem → Bool
  | [] => true
  | .leaf _ :: rest => wellPruned rest
  | .category _ (some cs) :: rest => !cs.isEmpty && (wellPruned cs && wellPruned rest)
  | .category _ none :: _ => false

/-- Spec-side definition for the flattening claim, following the spec's
words: the leaf ids found anywhere in one item, in depth-first pre-order —
a leaf contributes itself, a category contributes nothing itself and
yields the concatenation of its children's leaf ids in child order. -/
def leafIdsOf : PinnedItem → List String
  | .leaf i => [i]
  | .category _ none => []
  | .category _ (some cs) => (cs.attach.map fun c => leafIdsOf c.1).flatten
termination_by item => sizeOf item
decreasing_by
  have := List.sizeOf_lt_of_mem c.2
  simp only [PinnedItem.category.sizeOf_spec, Option.some.sizeOf_spec]
  omega

/-- The pre-order list of category names of a tree (used to witness which
categories are present at which relative position). -/
def categoryNames : List PinnedItem → List String
  | [] => []
  | .leaf _ :: rest => categoryNames rest
  | .category n (some cs) :: rest => n :: (categoryNames cs ++ categoryNames rest)
  | .category n none :: rest => n :: categoryNames rest

/-- Output/input correspondence for `removeModelFromTree`: the output list
is obtained from the input by dropping whole items and, for each kept
category, rebuilding only its `children` field while every other field of
the node — its `name` — is kept equal to the corresponding input node's
(the source spreads `{ ...item, children }`). -/
inductive Retains : List PinnedItem → List PinnedItem → Prop where
  | nil : Retains [] []
  | keepLeaf {i : String} {rest out : List PinnedItem} :
      Retains rest out → Retains (.leaf i :: rest) (.leaf i :: out)
  | dropItem {item : PinnedItem} {rest out : List PinnedItem} :
      Retains rest out → Retains (item :: rest) out
  | keepCategory {n : String} {cs : Option (List PinnedItem)}
      {cs2 rest out : List PinnedItem} :
      Retains (cs.getD []) cs2 → Retains rest out →
      Retains (.category n cs :: rest) (.category n (some cs2) :: out)

/-- An output message of the worker, `src/unnamed/part_000`:
`{type:'progress',page,total}` after each page, `{type:'done',text}` at
the end, `{type:'error',error}` from the catch block. -/
inductive WorkerMsg where
  | progress : Nat → Nat → WorkerMsg
  | done : String → WorkerMsg
  | error : String → WorkerMsg
deriving DecidableEq

/-- The outcome of the external PDF library on the input buffer: either
parsing fails (`getDocument({data}).promise` rejects) with a message, or
it yields a document whose pages each either fail text extraction or
yield their list of text fragments (`content.items.map(item => item.str)`).
The library itself is outside this repository; this type is the interface
the worker code consumes. -/
inductive PdfOutcome where
  | parseFail : String → PdfOutcome
  | parsed : List (Except String (List String)) → PdfOutcome

/-- The text built for one page: the fragments joined with single spaces
and a newline appended (`strings.join(' ') + '\n'`). -/
def pageText (fragments : List String) : String :=
  String.intercalate " " fragments ++ "\n"

/-- Concatenation of the per-page texts, in page order. -/
def concatTexts : List (List String) → String
  | [] => ""
  | f :: fs => pageText f ++ concatTexts fs

/-- The worker's page loop, starting at page number `pageNum` with the
text accumulated so far: each successfully extracted page appends its
`pageText` and posts one progress message carrying its page number and
`total`; after the last page exactly one done message with the full text
is posted; a page whose extraction fails throws, so control reaches the
catch block, which posts one error message, and nothing further runs. -/
def runPages (total : Nat) : Nat → String → List (Except String (List String)) → List WorkerMsg
  | _, text, [] => [.done text]
  | _, _, .error e :: _ => [.error e]
  | pageNum, text, .ok frags :: rest =>
      .progress pageNum total :: runPages total (pageNum + 1) (text ++ pageText frags) rest

/-- Embedding of the worker's `onmessage` body: a parse failure is caught
and posts a single error message; otherwise pages `1..numPages` are
processed in order with `total = numPages`. -/
def runWorker : PdfOutcome → List WorkerMsg
  | .parseFail msg => [.error msg]
  | .parsed pages => runPages pages.length 1 "" pages

/-- Whether the library outcome contains a failure: parsing failed, or
some page's text extraction fails. -/
def hasFailure : PdfOutcome → Bool
  | .parseFail _ => true
  | .parsed pages => pages.any fun p =>
      match p with
      | .error _ => true
      | .ok _ => false

/-- Flattening distributes over list concatenation of trees. -/
theorem getPinnedModelIds_append (a b : List PinnedItem) :
    getPinnedModelIds (a ++ b) = getPinnedModelIds a ++ getPinnedModelIds b := by
  induction a with
  | nil => simp [getPinnedModelIds]
  | cons item rest ih =>
    cases item with
    | leaf i => simp [getPinnedModelIds, ih]
    | category n cs =>
      cases cs with
      | some l => simp [getPinnedModelIds, ih]
      | none => simp [getPinnedModelIds, ih]

/-- The flattened ids of the tree after removal are exactly the flattened
ids of the original tree with every occurrence of the removed id filtered
out. -/
theorem getPinnedModelIds_removeModelFromTree (T : List PinnedItem) (X : String) :
    getPinnedModelIds (removeModelFromTree T X) =
      (getPinnedModelIds T).filter (fun i => i != X) := by
  induction T, X using removeModelFromTree.induct with
  | case1 X =>
    simp [removeModelFromTree, getPinnedModelIds]
  | case2 rest modelId ih =>
    simp [removeModelFromTree, getPinnedModelIds, ih]
  | case3 i rest modelId hne ih =>
    simp [removeModelFromTree, getPinnedModelIds, ih, hne]
  | case4 n cs rest modelId children hlen ihc ihr =>
    simp [removeModelFromTree, getPinnedModelIds, hlen, ihc, ihr, List.filter_append]
  | case5 n cs rest modelId children hlen ihc ihr =>
    have hnil : removeModelFromTree cs modelId = [] :=
      List.length_eq_zero.mp (Nat.eq_zero_of_not_pos hlen)
    have hfil : List.filter (fun i => i != modelId) (getPinnedModelIds cs) = [] := by
      rw [← ihc, hnil]
      simp [getPinnedModelIds]
    simp [removeModelFromTree, getPinnedModelIds, hlen, ihr, List.filter_append, hfil]
  | case6 n rest modelId ih =>
    simp [removeModelFromTree, getPinnedModelIds, ih]

/-- The output of `removeModelFromTree` is always well-pruned: a category
is only emitted when its rebuilt child list is nonempty, and those
children are themselves removal output. -/
theorem wellPruned_removeModelFromTree (T : List PinnedItem) (X : String) :
    wellPruned (removeModelFromTree T X) = true := by
  induction T, X using removeModelFromTree.induct with
  | case1 X =>
    simp [removeModelFromTree, wellPruned]
  | case2 rest modelId ih =>
    simp [removeModelFromTree, ih]
  | case3 i rest modelId hne ih =>
    simp [removeModelFromTree, wellPruned, hne, ih]
  | case4 n cs rest modelId children hlen ihc ihr =>
    have hne : (removeModelFromTree cs modelId).isEmpty = false := by
      have hl : 0 < (removeModelFromTree cs modelId).length := hlen
      rcases h : removeModelFromTree cs modelId with _ | ⟨a, l⟩
      · rw [h] at hl
        simp at hl
      · simp
    simp [removeModelFromTree, wellPruned, hlen, ihc, ihr, hne]
  | case5 n cs rest modelId children hlen ihc ihr =>
    simp [removeModelFromTree, hlen, ihr]
  | case6 n rest modelId ih =>
    simp [removeModelFromTree, ih]

/-- On a well-pruned tree that nowhere contains the target id, removal is
the identity: every leaf is kept, every category's child list filters to
itself and stays nonempty. -/
theorem removeModelFromTree_eq_self (T : List PinnedItem) (X : String)
    (hw : wellPruned T = true) (hx : X ∉ getPinnedModelIds T) :
    removeModelFromTree T X = T := by
  induction T, X using removeModelFromTree.induct with
  | case1 X =>
    simp [removeModelFromTree]
  | case2 rest modelId ih =>
    simp [getPinnedModelIds] at hx
  | case3 i rest modelId hne ih =>
    simp only [getPinnedModelIds, List.mem_cons] at hx
    push_neg at hx
    simp only [wellPruned] at hw
    simp [removeModelFromTree, hne, ih hw hx.2]
  | case4 n cs rest modelId children hlen ihc ihr =>
    simp only [wellPruned, Bool.and_eq_true] at hw
    simp only [getPinnedModelIds, List.mem_append] at hx
    push_neg at hx
    have hcs : cs ≠ [] := by
      intro hcseq
      rw [hcseq] at hw
      simp at hw
    simp [removeModelFromTree, hlen, ihc hw.2.1 hx.1, ihr hw.2.2 hx.2, hcs]
  | case5 n cs rest modelId children hlen ihc ihr =>
    simp only [wellPruned, Bool.and_eq_true] at hw
    simp only [getPinnedModelIds, List.mem_append] at hx
    push_neg at hx
    have hl : ¬0 < (removeModelFromTree cs modelId).length := hlen
    rw [ihc hw.2.1 hx.1] at hl
    rcases cs with _ | ⟨a, l⟩
    · simp at hw
    · simp at hl
  | case6 n rest modelId ih =>
    simp [wellPruned] at hw

/-- Page loop on a run of successfully extracted pages: one progress
message per page with consecutive page numbers starting at `pageNum`, then
one done message whose text is the accumulator followed by the per-page
texts. -/
theorem runPages_ok_eq (frags : List (List String)) :
    ∀ (total pageNum : Nat) (text : String),
    runPages total pageNum text (frags.map Except.ok) =
      (List.range frags.length).map (fun i => WorkerMsg.progress (pageNum + i) total) ++
        [WorkerMsg.done (text ++ concatTexts frags)] := by
  induction frags with
  | nil =>
    intro total pageNum text
    simp [runPages, concatTexts]
  | cons f fs ih =>
    intro total pageNum text
    simp only [List.map_cons, runPages, ih, concatTexts, List.length_cons,
      List.range_succ_eq_map, List.map_map, List.cons_append, Nat.add_zero]
    have h1 : (fun i => WorkerMsg.progress (pageNum + 1 + i) total) =
        (fun i => WorkerMsg.progress (pageNum + i) total) ∘ Nat.succ := by
      funext i
      simp only [Function.comp_apply]
      congr 1
      omega
    rw [h1, String.append_assoc]

/-- Page loop on a page list containing a failed extraction: the output is
a list of progress messages followed by exactly one error message, and
nothing else — in particular no done message. -/
theorem runPages_failure_shape (pages : List (Except String (List String))) :
    ∀ (total pageNum : Nat) (text : String),
    (pages.any fun p =>
      match p with
      | .error _ => true
      | .ok _ => false) = true →
    ∃ ms e, runPages total pageNum text pages = ms ++ [WorkerMsg.error e] ∧
      ∀ m ∈ ms, ∃ p t, m = WorkerMsg.progress p t := by
  induction pages with
  | nil =>
    intro _ _ _ h
    simp at h
  | cons pg rest ih =>
    intro total pageNum text h
    cases pg with
    | error e =>
      exact ⟨[], e, by simp [runPages], by simp⟩
    | ok frags =>
      have h2 : (rest.any fun p =>
          match p with
          | .error _ => true
          | .ok _ => false) = true := by
        simpa [List.any_cons] using h
      obtain ⟨ms, e, heq, hms⟩ := ih total (pageNum + 1) (text ++ pageText frags) h2
      refine ⟨WorkerMsg.progress pageNum total :: ms, e, ?_, ?_⟩
      · simp [runPages, heq]
      · intro m hm
        rcases List.mem_cons.mp hm with hh | hh
        · exact ⟨pageNum, total, hh⟩
        · exact hms m hh

/-- C1: removal is total and prunes — for every tree T and id X the
flattened ids of `removeModelFromTree T X` contain no occurrence of X, at
any depth, and every category left in the output carries a present,
recursively nonempty child list: empty categories are dropped from their
parent transitively up to the root. -/
theorem removeModelFromTree_total_and_pruned (T : List PinnedItem) (X : String) :
    X ∉ getPinnedModelIds (removeModelFromTree T X) ∧
    wellPruned (removeModelFromTree T X) = true := by
  constructor
  · rw [getPinnedModelIds_removeModelFromTree]
    simp [List.mem_filter]
  · exact wellPruned_removeModelFromTree T X

/-- C2: `getPinnedModelIds` returns exactly the depth-first pre-order
flattening of the leaf ids of the tree — siblings in list order, recursing
into each category's children in order — with categories themselves
contributing no entry. -/
theorem getPinnedModelIds_eq_dfs_flatten (T : List PinnedItem) :
    getPinnedModelIds T = (T.map leafIdsOf).flatten := by
  induction T using getPinnedModelIds.induct with
  | case1 => simp [getPinnedModelIds]
  | case2 i rest ih => simp [getPinnedModelIds, leafIdsOf, ih]
  | case3 n cs rest ihc ihr =>
    simp [getPinnedModelIds, leafIdsOf, ihc, ihr, List.attach_map_val]
  | case4 n rest ih => simp [getPinnedModelIds, leafIdsOf, ih]

/-- C3 counterexample: a category whose child list is already empty is
dropped by `removeModelFromTree` even though the removed id occurs nowhere
in the tree, so the output does not keep the same categories as the
input. -/
theorem removeModelFromTree_absent_counterexample :
    "x" ∉ getPinnedModelIds [PinnedItem.category "G" (some [])] ∧
    removeModelFromTree [PinnedItem.category "G" (some [])] "x" = [] ∧
    categoryNames [PinnedItem.category "G" (some [])] = ["G"] ∧
    categoryNames ([] : List PinnedItem) = [] := by
  refine ⟨?_, ?_, ?_, ?_⟩ <;>
    simp [getPinnedModelIds, removeModelFromTree, categoryNames]

/-- C3 (amended): if X occurs nowhere as a leaf in T, then
`removeModelFromTree T X` has the same flattened id sequence as T, and —
provided every category of T has a present and recursively nonempty child
list — it is the very same tree; pre-existing empty or children-less
categories are dropped. -/
theorem removeModelFromTree_absent_id (T : List PinnedItem) (X : String)
    (h : X ∉ getPinnedModelIds T) :
    getPinnedModelIds (removeModelFromTree T X) = getPinnedModelIds T ∧
    (wellPruned T = true → removeModelFromTree T X = T) := by
  constructor
  · rw [getPinnedModelIds_removeModelFromTree]
    refine List.filter_eq_self.mpr fun a ha => ?_
    simp only [bne_iff_ne, ne_eq]
    intro heq
    exact h (heq ▸ ha)
  · intro hw
    exact removeModelFromTree_eq_self T X hw h

/-- C3 witness: the amended statement instantiated on the spec's example
tree and an id that does not occur in it. -/
theorem removeModelFromTree_absent_id_witness :
    "d" ∉ getPinnedModelIds [PinnedItem.leaf "a",
      PinnedItem.category "G" (some [PinnedItem.leaf "b", PinnedItem.leaf "c"])] ∧
    (getPinnedModelIds (removeModelFromTree [PinnedItem.leaf "a",
        PinnedItem.category "G" (some [PinnedItem.leaf "b", PinnedItem.leaf "c"])] "d") =
      getPinnedModelIds [PinnedItem.leaf "a",
        PinnedItem.category "G" (some [PinnedItem.leaf "b", PinnedItem.leaf "c"])] ∧
      (wellPruned [PinnedItem.leaf "a",
          PinnedItem.category "G" (some [PinnedItem.leaf "b", PinnedItem.leaf "c"])] = true →
        removeModelFromTree [PinnedItem.leaf "a",
          PinnedItem.category "G" (some [PinnedItem.leaf "b", PinnedItem.leaf "c"])] "d" =
        [PinnedItem.leaf "a",
          PinnedItem.category "G" (some [PinnedItem.leaf "b", PinnedItem.leaf "c"])])) :=
  ⟨by simp [getPinnedModelIds],
    removeModelFromTree_absent_id _ _ (by simp [getPinnedModelIds])⟩

/-- C4: when the document parses and every one of its pages extracts
successfully, the worker processes pages 1..N in order and emits exactly
one progress message per page, carrying the 1-based page number and the
total N, followed by exactly one done message whose text is the
concatenation of the per-page texts (fragments joined by single spaces,
one newline per page). -/
theorem runWorker_all_pages_ok (frags : List (List String)) :
    runWorker (PdfOutcome.parsed (frags.map Except.ok)) =
      (List.range frags.length).map (fun i => WorkerMsg.progress (i + 1) frags.length) ++
        [WorkerMsg.done (concatTexts frags)] := by
  simp only [runWorker, List.length_map]
  rw [runPages_ok_eq, String.empty_append]
  congr 1
  exact List.map_congr_left fun i _ => by rw [Nat.add_comm]

/-- C5: on any outcome containing a failure — parsing fails, or some
page's text extraction fails — the worker posts a (possibly empty) run of
progress messages terminated by exactly one error message carrying the
failure's message string: no done message follows, no partial text is
returned, and nothing runs after the error. -/
theorem runWorker_failure (input : PdfOutcome) (h : hasFailure input = true) :
    ∃ ms e, runWorker input = ms ++ [WorkerMsg.error e] ∧
      ∀ m ∈ ms, ∃ p t, m = WorkerMsg.progress p t := by
  cases input with
  | parseFail msg =>
    exact ⟨[], msg, by simp [runWorker], by simp⟩
  | parsed pages =>
    exact runPages_failure_shape pages pages.length 1 "" (by simpa [hasFailure] using h)

/-- C5 witness: the failure shape at a concrete rejected parse. -/
theorem runWorker_failure_witness :
    hasFailure (PdfOutcome.parseFail "bad xref") = true ∧
    (∃ ms e, runWorker (PdfOutcome.parseFail "bad xref") = ms ++ [WorkerMsg.error e] ∧
      ∀ m ∈ ms, ∃ p t, m = WorkerMsg.progress p t) :=
  ⟨rfl, runWorker_failure _ rfl⟩

/-- C6: `addModelToTree` returns the input with the id appended as a new
leaf at the end of the top-level sequence — existing items and their order
untouched, never inserted into a sub-category, no de-duplication — so the
flattened sequence is the original one with X appended. -/
theorem addModelToTree_appends (T : List PinnedItem) (X : String) :
    addModelToTree T X = T ++ [PinnedItem.leaf X] ∧
    getPinnedModelIds (addModelToTree T X) = getPinnedModelIds T ++ [X] := by
  refine ⟨rfl, ?_⟩
  rw [addModelToTree, getPinnedModelIds_append]
  simp [getPinnedModelIds]

/-- C7: removal is idempotent — removing the same id twice returns the
very same tree as removing it once, so in particular the same flattened id
sequence and the same categories. -/
theorem removeModelFromTree_idempotent (T : List PinnedItem) (X : String) :
    removeModelFromTree (removeModelFromTree T X) X = removeModelFromTree T X := by
  apply removeModelFromTree_eq_self
  · exact wellPruned_removeModelFromTree T X
  · rw [getPinnedModelIds_removeModelFromTree]
    simp [List.mem_filter]

/-- C8: the tree utilities are total functions with no error outcome:
empty input contributes nothing, a category with an empty child list
contributes nothing, and a malformed item lacking a `children` field is
silently skipped by flattening and dropped by removal — never a raised
exception. -/
theorem pinned_tree_utils_defensive (n X : String) (rest : List PinnedItem) :
    getPinnedModelIds (PinnedItem.category n none :: rest) = getPinnedModelIds rest ∧
    removeModelFromTree (PinnedItem.category n none :: rest) X =
      removeModelFromTree rest X ∧
    getPinnedModelIds (PinnedItem.category n (some []) :: rest) = getPinnedModelIds rest ∧
    getPinnedModelIds ([] : List PinnedItem) = [] ∧
    removeModelFromTree ([] : List PinnedItem) X = [] ∧
    addModelToTree [] X = [PinnedItem.leaf X] := by
  refine ⟨?_, ?_, ?_, ?_, ?_, ?_⟩ <;>
    simp [getPinnedModelIds, removeModelFromTree, addModelToTree]

/-- C9: frame condition of removal — the output tree is derived from the
input by dropping whole items and rebuilding only the `children` field of
the kept categories, each kept category node carrying the same `name` as
the input node it comes from. -/
theorem removeModelFromTree_retains (T : List PinnedItem) (X : String) :
    Retains T (removeModelFromTree T X) := by
  induction T, X using removeModelFromTree.induct with
  | case1 X =>
    have heq : removeModelFromTree [] X = [] := by
      simp [removeModelFromTree]
    rw [heq]
    exact Retains.nil
  | case2 rest modelId ih =>
    have heq : removeModelFromTree (.leaf modelId :: rest) modelId =
        removeModelFromTree rest modelId := by
      simp [removeModelFromTree]
    rw [heq]
    exact Retains.dropItem ih
  | case3 i rest modelId hne ih =>
    have heq : removeModelFromTree (.leaf i :: rest) modelId =
        .leaf i :: removeModelFromTree rest modelId := by
      simp [removeModelFromTree, hne]
    rw [heq]
    exact Retains.keepLeaf ih
  | case4 n cs rest modelId children hlen ihc ihr =>
    have heq : removeModelFromTree (.category n (some cs) :: rest) modelId =
        .category n (some (removeModelFromTree cs modelId)) ::
          removeModelFromTree rest modelId := by
      simp [removeModelFromTree, hlen]
    rw [heq]
    exact Retains.keepCategory ihc ihr
  | case5 n cs rest modelId children hlen ihc ihr =>
    have heq : removeModelFromTree (.category n (some cs) :: rest) modelId =
        removeModelFromTree rest modelId := by
      simp [removeModelFromTree, hlen]
    rw [heq]
    exact Retains.dropItem ihr
  | case6 n rest modelId ih =>
    have heq : removeModelFromTree (.category n none :: rest) modelId =
        removeModelFromTree rest modelId := by
      simp [removeModelFromTree]
    rw [heq]
    exact Retains.dropItem ih

/-- C10: a document the library reports as having zero pages makes the
worker emit no progress message and exactly one done message whose text is
empty. -/
theorem runWorker_zero_pages :
    runWorker (PdfOutcome.parsed []) = [WorkerMsg.done ""] := rfl
